import Mathlib

/-!
Verification development for the TT.Eval execution engine
(src/TT.Eval/EvalCore.h).  Strings are modelled as lists of characters;
the shared-pointer tree becomes a pure inductive; the C++ `int` values
read through std::stringstream are modelled as Int with the C++11
clamping behaviour made explicit; paths that are undefined behaviour in
C++ (std::stack::top/pop on an empty stack, std::vector::operator[]
out of range, reading an uninitialised value) are modelled by a
dedicated error constructor `EvalErr.ub`.
-/

/-- Characters of a std::string. -/
abbrev Str := List Char

/-- The tree node: `value` models class Value (a Leaf holding text),
`branch` models class Branch (ordered children). -/
inductive Node where
  | value : Str → Node
  | branch : List Node → Node
deriving Repr

mutual

/-- Structural size of a node, used as fuel/measure for the iterative
loops of the source. -/
def nodeSize : Node → Nat
  | .value _ => 1
  | .branch cs => 1 + listSize cs

/-- Sum of the sizes of a list of nodes. -/
def listSize : List Node → Nat
  | [] => 0
  | c :: t => nodeSize c + listSize t

end

mutual

/-- Depth as computed by BranchBase::Depth: a Value has depth 0, a
Branch has (max over its children of their depth) + 1, where the max
of no children is 0. -/
def Node.depth : Node → Nat
  | .value _ => 0
  | .branch cs => depthMax cs + 1

/-- The running maximum (`int max = 0; ... if (i->Depth() > max)`) of
Branch::Depth over a child list. -/
def depthMax : List Node → Nat
  | [] => 0
  | c :: t => max c.depth (depthMax t)

end

mutual

/-- Deep copy as BranchBase::Copy: a Value clone keeps the text, a
Branch clone recursively clones the children in order. -/
def Node.copy : Node → Node
  | .value s => .value s
  | .branch cs => .branch (listCopy cs)

/-- Branch::Copy copies each child in index order. -/
def listCopy : List Node → List Node
  | [] => []
  | c :: t => c.copy :: listCopy t

end

/-- ExecutionEngineException::Level. -/
inductive Level where
  | warning
  | minor
  | critical
  | fatal
deriving Repr, DecidableEq

/-- The underlying enum value, used for the ordered comparison
`exception->ErrorLevel() > ApprovedLevel`. -/
def Level.toNat : Level → Nat
  | .warning => 0
  | .minor => 1
  | .critical => 2
  | .fatal => 3

/-- ExecutionEngineException: an optional wrapped base exception, the
stored what_ text, and the error level.  (In the constructor the
switch that appends a "[Level]" tag modifies only the local copy of
the parameter after what_ has already been initialised, so the tag
never reaches what_; it is therefore omitted here.) -/
inductive EEE where
  | mk : Option EEE → Str → Level → EEE
deriving Repr

/-- ErrorLevel() of an exception. -/
def EEE.errorLevel : EEE → Level
  | .mk _ _ l => l

/-- what(): the stored text followed by the base exception what()
when a base is present (what_ += base->what() in the constructor). -/
def EEE.whatStr : EEE → Str
  | .mk base w _ => w ++ (match base with
      | some b => b.whatStr
      | none => [])

/-- ExecutionEngineException::ThrowWraped(msg, level): throws
`new ExecutionEngineException(new ExecutionEngineException(nullptr, msg, level))`.
The inner exception carries the given message and level; the outer one
is built with the defaults "Execution engine exception" and
Level::Fatal, so the exception object actually thrown always has
ErrorLevel() == Fatal. -/
def throwWraped (msg : Str) (lvl : Level) : EEE :=
  .mk (some (.mk none msg lvl)) ("Execution engine exception".toList) .fatal

/-- An error outcome: either a thrown ExecutionEngineException, or a
path that is undefined behaviour in the C++ source (top/pop on an
empty std::stack, std::vector or std::string indexing out of range). -/
inductive EvalErr where
  | ex : EEE → EvalErr
  | ub : EvalErr
deriving Repr

/-- Helper: the error thrown by ThrowWraped(msg, lvl). -/
def exErr (msg : Str) (lvl : Level) : EvalErr := .ex (throwWraped msg lvl)

/-- Result of running one registered operation on the Data stack: the
new stack, or an error paired with the stack contents at the moment of
the throw (C++ operations mutate in place, so the partially mutated
stack survives the throw). -/
abbrev OpRes := Except (EvalErr × List Node) (List Node)

/-- Whitespace as skipped by std::istream formatted extraction
(std::isspace in the default locale). -/
def isWsChar (c : Char) : Bool :=
  c = ' ' ∨ c = '\t' ∨ c = '\n' ∨ c = '\x0b' ∨ c = '\x0c' ∨ c = '\r'

/-- Decimal value accumulation over already-validated digit characters. -/
def parseNatDigits (ds : Str) : Nat :=
  ds.foldl (fun a d => a * 10 + (d.toNat - 48)) 0

/-- The unsigned part of a stringstream int extraction: a maximal run
of decimal digits (no digits at all stores 0; positive overflow
clamps to INT_MAX, C++11 semantics). -/
def readAsIntPos (t : Str) : Int :=
  let ds := t.takeWhile Char.isDigit
  if ds = [] then 0 else ((min (parseNatDigits ds) 2147483647 : Nat) : Int)

/-- Sign handling of the extraction: an optional leading '-' (with
clamping to INT_MIN) or '+' before the digit run. -/
def readAsIntCore : Str → Int
  | [] => 0
  | c :: r =>
    if c = '-' then
      let ds := r.takeWhile Char.isDigit
      if ds = [] then 0 else -(((min (parseNatDigits ds) 2147483648 : Nat) : Int))
    else if c = '+' then readAsIntPos r
    else readAsIntPos (c :: r)

/-- Value::ReadAs<int>: extraction of an int from a std::stringstream
over the stored text (C++11 semantics): leading whitespace is skipped,
an optional sign and a maximal run of decimal digits are consumed; if
no digits are present the result is 0; on overflow the result clamps
to INT_MAX / INT_MIN. -/
def readAsInt (s : Str) : Int := readAsIntCore (s.dropWhile isWsChar)

/-- Decimal rendering of a Nat (the text of the "unsigned-integer
leaf" for a number); fuelled so that it reduces in the kernel. -/
def natToStrAux : Nat → Nat → Str
  | 0, _ => []
  | fuel + 1, n =>
      if n < 10 then [Char.ofNat (48 + n)]
      else natToStrAux fuel (n / 10) ++ [Char.ofNat (48 + n % 10)]

def natToStr (n : Nat) : Str := natToStrAux (n + 1) n

/-- Evaluator::RequireValue: is_value(br) means Depth() == 0, which
holds exactly for the value constructor. -/
def requireValue (n : Node) : Option EvalErr :=
  match n with
  | .value _ => none
  | .branch _ => some (exErr "Branch as value argument".toList .critical)

/-- Evaluator::RequireBranch: is_branch(br) means Depth() > 0, which
holds exactly for the branch constructor. -/
def requireBranch (n : Node) : Option EvalErr :=
  match n with
  | .branch _ => none
  | .value _ => some (exErr "Value as branch argument".toList .critical)

/-- Evaluator::RequireInteger: first RequireValue, then the length
bound (> 8 characters rejected), then the emptiness check, then a scan
for a character outside '0'..'9'. -/
def requireInteger (n : Node) : Option EvalErr :=
  match requireValue n with
  | some e => some e
  | none =>
    match n with
    | .branch _ => none
    | .value v =>
      if 8 < v.length then some (exErr "Number larger than integer".toList .critical)
      else if v.length = 0 then some (exErr "Passing empty as number".toList .critical)
      else if v.all (fun c => '0' ≤ c ∧ c ≤ '9') then none
      else some (exErr "Not a number passed as an integer".toList .critical)

/-- Evaluator::RequireTop(sz): Data.size() < sz raises MissingArgument. -/
def requireTop (sz : Nat) (s : List Node) : Option EvalErr :=
  if s.length < sz then some (exErr "Required argument, but not passed".toList .critical)
  else none

/-- Evaluator::RequireValueTop: RequireTop() then RequireValue(Data.top()). -/
def requireValueTop (s : List Node) : Option EvalErr :=
  match requireTop 1 s with
  | some e => some e
  | none =>
    match s with
    | [] => none
    | n :: _ => requireValue n

/-- Evaluator::RequireIntegerTop: RequireTop() then RequireInteger(Data.top()). -/
def requireIntegerTop (s : List Node) : Option EvalErr :=
  match requireTop 1 s with
  | some e => some e
  | none =>
    match s with
    | [] => none
    | n :: _ => requireInteger n

/-- Evaluator::RequireBranchTop: RequireTop() then RequireBranch(Data.top()). -/
def requireBranchTop (s : List Node) : Option EvalErr :=
  match requireTop 1 s with
  | some e => some e
  | none =>
    match s with
    | [] => none
    | n :: _ => requireBranch n

/-- The lambda registered for "#": `eval->Data.pop()`, with no check,
so popping an empty stack is std::stack UB. -/
def popOp (s : List Node) : OpRes :=
  match s with
  | [] => .error (.ub, [])
  | _ :: t => .ok t

/-- Evaluator::PackTop ("^t"): explicit empty-stack check, then wrap
exactly the top node in a one-child Branch (Branch(stack, 1)). -/
def packTop (s : List Node) : OpRes :=
  match s with
  | [] => .error (exErr "Required argument, but not passed".toList .critical, [])
  | n :: t => .ok (.branch [n] :: t)

/-- Evaluator::UnpackTop ("^_t"): RequireBranchTop, pop the Branch,
then Branch::Unpack pushes a clone of each child in index order (so
the last child ends up on top of the stack). -/
def unpackTop (s : List Node) : OpRes :=
  match requireBranchTop s with
  | some e => .error (e, s)
  | none =>
    match s with
    | .branch cs :: t => .ok ((listCopy cs).reverse ++ t)
    | _ => .error (.ub, s)

/-- The pop/collect loop of Evaluator::PackTopSameLevel: while the
stack is non-empty and the Depth of the top equals d, push_back the top
onto the child list and pop. -/
def packLoop (d : Nat) : List Node → List Node → List Node × List Node
  | [], acc => (acc, [])
  | n :: t, acc => if n.depth = d then packLoop d t (acc ++ [n]) else (acc, n :: t)

/-- Evaluator::PackTopSameLevel ("^"): reads d from Data.top() with no
empty-stack check (UB on an empty stack), runs the pop/collect loop,
then pushes the new Branch. -/
def packTopSameLevel (s : List Node) : OpRes :=
  match s with
  | [] => .error (.ub, [])
  | n :: _ =>
    let r := packLoop n.depth s []
    .ok (.branch r.1 :: r.2)

/-- Evaluator::PackTopX ("^tc"): RequireValueTop, read the count c via
ReadAs<int>, pop it; `Data.size() < c` compares size_t with int (a
negative c converts to a huge size_t, so the check fires); then
Branch(stack, c) takes c nodes, with child index c-1 receiving the
old top (children in bottom-to-top order). -/
def packTopX (s : List Node) : OpRes :=
  match requireValueTop s with
  | some e => .error (e, s)
  | none =>
    match s with
    | .value v :: rest =>
      let c := readAsInt v
      if c < 0 ∨ rest.length < c.toNat then
        .error (exErr "Too few arguments to unpack".toList .critical, rest)
      else
        .ok (.branch ((rest.take c.toNat).reverse) :: rest.drop c.toNat)
    | _ => .error (.ub, s)

/-- Evaluator::EmptyBranch ("|Eb"). -/
def emptyBranch (s : List Node) : OpRes := .ok (.branch [] :: s)

/-- Evaluator::EmptyElement ("|Ev"). -/
def emptyElement (s : List Node) : OpRes := .ok (.value [] :: s)

/-- Evaluator::CopyFromIndex ("|i", "|["): RequireValueTop, read the
index, pop it, RequireBranchTop, then push Branches[c]->Copy().
std::vector::operator[] performs no bounds check, so an out-of-range
(or negative) index is UB. -/
def copyFromIndex (s : List Node) : OpRes :=
  match requireValueTop s with
  | some e => .error (e, s)
  | none =>
    match s with
    | .value v :: rest =>
      let c := readAsInt v
      match requireBranchTop rest with
      | some e => .error (e, rest)
      | none =>
        match rest with
        | .branch cs :: _ =>
          if h : 0 ≤ c ∧ c.toNat < cs.length then
            .ok ((cs.get ⟨c.toNat, h.2⟩).copy :: rest)
          else
            .error (.ub, rest)
        | _ => .error (.ub, rest)
    | _ => .error (.ub, s)

/-- Evaluator::Undot ("$"): RequireValueTop; if the first character is
'.', replace the text by substr(1, size) (drop the first character).
For an empty string, operator[](0) reads the guaranteed null
terminator (C++11), which is not '.', so the text is unchanged. -/
def undot (s : List Node) : OpRes :=
  match requireValueTop s with
  | some e => .error (e, s)
  | none =>
    match s with
    | .value v :: t =>
      match v with
      | '.' :: r => .ok (.value r :: t)
      | _ => .ok (.value v :: t)
    | _ => .error (.ub, s)

/-- Evaluator::Reverse ("_"): RequireTop; a Value has its text
reversed in place by the swap loop, a Branch has its child order
reversed in place. -/
def reverseOp (s : List Node) : OpRes :=
  match requireTop 1 s with
  | some e => .error (e, s)
  | none =>
    match s with
    | .value v :: t => .ok (.value v.reverse :: t)
    | .branch cs :: t => .ok (.branch cs.reverse :: t)
    | [] => .error (.ub, [])

/-- Evaluator::Copy ("|"): RequireTop, then push Data.top()->Copy(). -/
def copyOp (s : List Node) : OpRes :=
  match requireTop 1 s with
  | some e => .error (e, s)
  | none =>
    match s with
    | n :: t => .ok (n.copy :: n :: t)
    | [] => .error (.ub, [])

/-- Evaluator::Duplicate ("|c"): RequireIntegerTop, read the count c,
pop it, then `for (i = 1; i < c; i++) Data.push(Data.top()->Copy())`:
no iteration for c <= 1; otherwise each iteration clones the current
top (clone of clone, equal in value), needing a non-empty stack on the
first iteration. -/
def duplicate (s : List Node) : OpRes :=
  match requireIntegerTop s with
  | some e => .error (e, s)
  | none =>
    match s with
    | .value v :: rest =>
      let c := readAsInt v
      if c.toNat ≤ 1 then .ok rest
      else
        match rest with
        | [] => .error (.ub, [])
        | m :: _ => .ok (List.replicate (c.toNat - 1) m.copy ++ rest)
    | _ => .error (.ub, s)

/-- Evaluator::DeepRemove ("#d"): RequireIntegerTop, read c, pop it,
RequireTop(c + 1); then move the top c nodes aside, pop one node, and
push the c nodes back in their original relative order. -/
def deepRemove (s : List Node) : OpRes :=
  match requireIntegerTop s with
  | some e => .error (e, s)
  | none =>
    match s with
    | .value v :: rest =>
      let c := (readAsInt v).toNat
      match requireTop (c + 1) rest with
      | some e => .error (e, rest)
      | none => .ok (rest.take c ++ rest.drop (c + 1))
    | _ => .error (.ub, s)

/-- Measure of the DFS state of Evaluator::ExtractColumnPack: each
frame of the parallel stacks `br`/`cp` contributes 1 plus twice the
size of its not-yet-consumed children.  Every loop iteration strictly
decreases it, so it also serves as fuel. -/
def frameMeasure : List (List Node × Nat) → Nat
  | [] => 0
  | (cs, cp) :: rest => 1 + 2 * listSize (cs.drop cp) + frameMeasure rest

/-- The while loop of Evaluator::ExtractColumnPack ("|id", "|]"),
fuelled by `frameMeasure`.  A frame (cs, cp) is the child vector of
the Branch on the `br` stack together with its cursor on the `cp`
stack; `rest.length + 1` is br.size().  In order, each iteration:
pops an exhausted frame; at br.size() == depth appends a clone of
child `index` (when `index < size`, with the int-to-size_t conversion
making a negative index fail the test) to the output and pops; else
descends into a Branch child or skips a Value child. -/
def ecLoopAux (index : Int) (depth : Nat) : Nat → List (List Node × Nat) → List Node → List Node
  | _, [], acc => acc
  | 0, _ :: _, acc => acc
  | fuel + 1, (cs, cp) :: rest, acc =>
    if cs.length ≤ cp then
      ecLoopAux index depth fuel rest acc
    else if rest.length + 1 = depth then
      ecLoopAux index depth fuel rest
        (if 0 ≤ index ∧ index.toNat < cs.length then
          acc ++ [(cs.getD index.toNat (.value [])).copy] else acc)
    else
      match cs.getD cp (.value []) with
      | .branch cs2 => ecLoopAux index depth fuel ((cs2, 0) :: (cs, cp + 1) :: rest) acc
      | .value _ => ecLoopAux index depth fuel ((cs, cp + 1) :: rest) acc

/-- Evaluator::ExtractColumnPack ("|id", "|]"): pop the index, pop the
depth (both RequireValueTop + ReadAs<int>), reject depth < 1, require
a Branch on top (left in place), run the DFS loop, then push the new
flat Branch on top of the source Branch. -/
def extractColumnPack (s : List Node) : OpRes :=
  match requireValueTop s with
  | some e => .error (e, s)
  | none =>
  match s with
  | .value v :: rest =>
    let index := readAsInt v
    match requireValueTop rest with
    | some e => .error (e, rest)
    | none =>
    match rest with
    | .value dv :: rest2 =>
      let depth := readAsInt dv
      if depth < 1 then
        .error (exErr "Cannot extract from zero depth".toList .critical, rest2)
      else
        match requireBranchTop rest2 with
        | some e => .error (e, rest2)
        | none =>
        match rest2 with
        | .branch cs :: _ =>
          .ok (.branch (ecLoopAux index depth.toNat (frameMeasure [(cs, 0)]) [(cs, 0)] []) :: rest2)
        | _ => .error (.ub, rest2)
    | _ => .error (.ub, rest)
  | _ => .error (.ub, s)

/-- Measure/fuel for the grouped variant (the extra per-frame output
group does not enter the measure). -/
def egMeasure : List (List Node × Nat × List Node) → Nat
  | [] => 0
  | (cs, cp, _) :: rest => 1 + 2 * listSize (cs.drop cp) + egMeasure rest

/-- The while loop of Evaluator::ExtractGroupedColumnPack ("|]g").
Each frame additionally carries the children accumulated so far for
the output group (`nbr` stack) created for that frame; popping a frame
appends its completed group as a Branch to the group of the parent (the
C++ appends the shared pointer at descend time and mutates it until
the pop, which is observationally the same order). -/
def egLoopAux (index : Int) (depth : Nat) : Nat → List (List Node × Nat × List Node) → List Node
  | _, [] => []
  | 0, (_, _, g) :: _ => g
  | fuel + 1, (cs, cp, g) :: rest =>
    if cs.length ≤ cp then
      match rest with
      | [] => g
      | (pcs, pcp, pg) :: r => egLoopAux index depth fuel ((pcs, pcp, pg ++ [Node.branch g]) :: r)
    else if rest.length + 1 = depth then
      let g2 := if 0 ≤ index ∧ index.toNat < cs.length then
          g ++ [(cs.getD index.toNat (.value [])).copy] else g
      match rest with
      | [] => g2
      | (pcs, pcp, pg) :: r => egLoopAux index depth fuel ((pcs, pcp, pg ++ [Node.branch g2]) :: r)
    else
      match cs.getD cp (.value []) with
      | .branch cs2 => egLoopAux index depth fuel ((cs2, 0, []) :: (cs, cp + 1, g) :: rest)
      | .value _ => egLoopAux index depth fuel ((cs, cp + 1, g) :: rest)

/-- Evaluator::ExtractGroupedColumnPack ("|]g"): same argument
handling as ExtractColumnPack, grouped output. -/
def extractGroupedColumnPack (s : List Node) : OpRes :=
  match requireValueTop s with
  | some e => .error (e, s)
  | none =>
  match s with
  | .value v :: rest =>
    let index := readAsInt v
    match requireValueTop rest with
    | some e => .error (e, rest)
    | none =>
    match rest with
    | .value dv :: rest2 =>
      let depth := readAsInt dv
      if depth < 1 then
        .error (exErr "Cannot extract from zero depth".toList .critical, rest2)
      else
        match requireBranchTop rest2 with
        | some e => .error (e, rest2)
        | none =>
        match rest2 with
        | .branch cs :: _ =>
          .ok (.branch (egLoopAux index depth.toNat (egMeasure [(cs, 0, [])]) [(cs, 0, [])]) :: rest2)
        | _ => .error (.ub, rest2)
    | _ => .error (.ub, rest)
  | _ => .error (.ub, s)

/-- Literal match of `sep` at the front of a string; the elementary
step behind std::string::find. -/
def isPre : Str → Str → Bool
  | [], _ => true
  | _ :: _, [] => false
  | a :: as, b :: bs => a == b && isPre as bs

/-- The first occurrence of `sep` in a string, as located by
`value.find(split, p)`: scanning left to right, return the text before
the match and the text after it. -/
def splitFirst (sep : Str) : Str → Option (Str × Str)
  | [] => if isPre sep [] then some ([], []) else none
  | c :: t =>
    if isPre sep (c :: t) then some ([], (c :: t).drop sep.length)
    else
      match splitFirst sep t with
      | none => none
      | some (a, r) => some (c :: a, r)

/-- The segment loop of Evaluator::SplitRow: emit the text before each
successive non-overlapping occurrence of the separator, then emit the
remainder; fuelled (for a non-empty separator, s.length + 1 steps
always suffice). -/
def splitAllAux (sep : Str) : Nat → Str → List Str
  | 0, s => [s]
  | fuel + 1, s =>
    match splitFirst sep s with
    | none => [s]
    | some (a, r) => a :: splitAllAux sep fuel r

def splitAll (sep s : Str) : List Str := splitAllAux sep (s.length + 1) s

/-- Evaluator::SplitRow ("$_"): pop a Leaf separator (the
EmptySeparator error fires before the pop, so the separator is still
on the stack at the throw), pop a Leaf source, push a Branch of the
segment Leaves. -/
def splitRow (s : List Node) : OpRes :=
  match requireValueTop s with
  | some e => .error (e, s)
  | none =>
  match s with
  | .value sp :: rest =>
    if sp.length = 0 then
      .error (exErr "Empty passed as split".toList .critical, s)
    else
      match requireValueTop rest with
      | some e => .error (e, rest)
      | none =>
      match rest with
      | .value v :: rest2 => .ok (.branch ((splitAll sp v).map Node.value) :: rest2)
      | _ => .error (.ub, rest)
  | _ => .error (.ub, s)

/-- The accumulation loop of Evaluator::ConcatRow: children with
Depth() == 0 (exactly the Leaves) contribute their text, with the
separator emitted before every contribution except the first (flag f);
Branch children are skipped. -/
def concatGo (space : Str) (f : Bool) : List Node → Str
  | [] => []
  | n :: t =>
    match n with
    | .value v => (if f then space else []) ++ v ++ concatGo space true t
    | .branch _ => concatGo space f t

/-- Evaluator::ConcatRow ("$^"): pop a Leaf separator, pop a Branch,
push the concatenation of its direct Leaf children. -/
def concatRow (s : List Node) : OpRes :=
  match requireValueTop s with
  | some e => .error (e, s)
  | none =>
  match s with
  | .value space :: rest =>
    match requireBranchTop rest with
    | some e => .error (e, rest)
    | none =>
    match rest with
    | .branch cs :: rest2 => .ok (.value (concatGo space false cs) :: rest2)
    | _ => .error (.ub, rest)
  | _ => .error (.ub, s)

/-- Evaluator::LoadDefault: the std::set<FuncDef> keyed by exact name
equality, as consulted by Functions.find in EvalCom. -/
def findFunction (com : Str) : Option (List Node → OpRes) :=
  if com = "^t".toList then some packTop
  else if com = "^".toList then some packTopSameLevel
  else if com = "^_t".toList then some unpackTop
  else if com = "^tc".toList then some packTopX
  else if com = "|Eb".toList then some emptyBranch
  else if com = "|Ev".toList then some emptyElement
  else if com = "|i".toList then some copyFromIndex
  else if com = "|id".toList then some extractColumnPack
  else if com = "|[".toList then some copyFromIndex
  else if com = "|]".toList then some extractColumnPack
  else if com = "|]g".toList then some extractGroupedColumnPack
  else if com = "|".toList then some copyOp
  else if com = "|c".toList then some duplicate
  else if com = "#".toList then some popOp
  else if com = "#d".toList then some deepRemove
  else if com = "$".toList then some undot
  else if com = "$^".toList then some concatRow
  else if com = "$_".toList then some splitRow
  else if com = "_".toList then some reverseOp
  else none

/-- The observable Evaluator state relevant here: the Data stack (head
is the top) and the Log stack (head is the most recent entry). -/
structure EvalSt where
  data : List Node
  log : List Str
deriving Repr

/-- Evaluator::EvalCom(com, log, catch_localy): an empty token is a
no-op; an unregistered token is pushed verbatim as a Leaf; otherwise
the operation runs.  A thrown ExecutionEngineException is caught only
when catch_localy is set: the message (what() followed by the
"Caused during invoking:" line with the token) is pushed onto the Log
when the log flag is set, and the exception is re-thrown exactly when
ErrorLevel() > ApprovedLevel.  UB outcomes propagate uncaught. -/
def evalCom (approved : Level) (com : Str) (log : Bool) (catchLocaly : Bool)
    (st : EvalSt) : Except (EvalErr × EvalSt) EvalSt :=
  if com.length < 1 then .ok st
  else
    match findFunction com with
    | none => .ok { st with data := .value com :: st.data }
    | some f =>
      match f st.data with
      | .ok d => .ok { st with data := d }
      | .error (e, d) =>
        match e with
        | .ub => .error (.ub, { st with data := d })
        | .ex ex =>
          if catchLocaly then
            let msg := ex.whatStr ++ "\nCaused during invoking:".toList ++ com
            let lg := if log then msg :: st.log else st.log
            if approved.toNat < ex.errorLevel.toNat then
              .error (.ex ex, { data := d, log := lg })
            else
              .ok { data := d, log := lg }
          else
            .error (.ex ex, { st with data := d })

/-- The trace block of Evaluator::EvalComs: `for (j = 0; j < i + 1; j++)`
the stream receives "\t" << coms[i] << "\n" — the loop variable j is
unused in the body, so the failing token itself is printed i + 1
times. -/
def comTrace (c : Str) (count : Nat) : Str :=
  (List.replicate count (('\t' :: c) ++ ['\n'])).flatten

/-- Evaluator::EvalComs, with i the index of the current token: each
token runs through EvalCom(coms[i], false, false); on a thrown
exception a log entry with the what() text, the causing token and the
trace block is pushed, and the exception is re-thrown exactly when
ErrorLevel() > ApprovedLevel, aborting the remaining tokens; otherwise
the loop continues. -/
def evalComsGo (approved : Level) : Nat → List Str → EvalSt → Except (EvalErr × EvalSt) EvalSt
  | _, [], st => .ok st
  | i, c :: rest, st =>
    match evalCom approved c false false st with
    | .ok st2 => evalComsGo approved (i + 1) rest st2
    | .error (.ub, st2) => .error (.ub, st2)
    | .error (.ex ex, st2) =>
      let msg := ex.whatStr ++ "\nCaused during invoking:".toList ++ c
        ++ "\nCom trace:".toList ++ comTrace c (i + 1)
      let st3 : EvalSt := { data := st2.data, log := msg :: st2.log }
      if approved.toNat < ex.errorLevel.toNat then .error (.ex ex, st3)
      else evalComsGo approved (i + 1) rest st3

def evalComs (approved : Level) (coms : List Str) (st : EvalSt) :
    Except (EvalErr × EvalSt) EvalSt :=
  evalComsGo approved 0 coms st

/-- One `l.pop(); c_p.pop();` pair from Evaluator::Require ('.' case);
std::stack::pop on an empty stack is UB. -/
def dotStep : List (List Node) → List Nat → Except EvalErr (List (List Node) × List Nat)
  | [], _ => .error .ub
  | _ :: _, [] => .error .ub
  | _ :: lt, _ :: ct => .ok (lt, ct)

/-- One 'b' block from Evaluator::Require:
RequireBranch(l.top()->Branches[c_p.top()]), push the child branch,
increment the parent cursor, push a fresh cursor 0.  l.top()/c_p.top()
on an empty stack and vector indexing out of range are UB. -/
def bStep : List (List Node) → List Nat → Except EvalErr (List (List Node) × List Nat)
  | [], _ => .error .ub
  | _ :: _, [] => .error .ub
  | cs :: lt, i :: ct =>
    if i < cs.length then
      match cs.getD i (.value []) with
      | .value _ => .error (exErr "Value as branch argument".toList .critical)
      | .branch cs2 => .ok (cs2 :: cs :: lt, 0 :: (i + 1) :: ct)
    else .error .ub

/-- The 'v' case: RequireValue(l.top()->Branches[c_p.top()]), advance. -/
def vStep : List (List Node) → List Nat → Except EvalErr (List (List Node) × List Nat)
  | [], _ => .error .ub
  | _ :: _, [] => .error .ub
  | cs :: lt, i :: ct =>
    if i < cs.length then
      match cs.getD i (.value []) with
      | .value _ => .ok (cs :: lt, (i + 1) :: ct)
      | .branch _ => .error (exErr "Branch as value argument".toList .critical)
    else .error .ub

/-- The 'i' case: RequireInteger(l.top()->Branches[c_p.top()]), advance. -/
def iStep : List (List Node) → List Nat → Except EvalErr (List (List Node) × List Nat)
  | [], _ => .error .ub
  | _ :: _, [] => .error .ub
  | cs :: lt, i :: ct =>
    if i < cs.length then
      match requireInteger (cs.getD i (.value [])) with
      | some e => .error e
      | none => .ok (cs :: lt, (i + 1) :: ct)
    else .error .ub

/-- The 'e' case: the bare expression `l.top()->Branches[c_p.top()];`
still evaluates operator[] (UB when out of range), then advance. -/
def eStep : List (List Node) → List Nat → Except EvalErr (List (List Node) × List Nat)
  | [], _ => .error .ub
  | _ :: _, [] => .error .ub
  | cs :: lt, i :: ct =>
    if i < cs.length then .ok (cs :: lt, (i + 1) :: ct)
    else .error .ub

/-- One iteration of the do-while body of Evaluator::Require on
request[index].  The source handles '.' and 'b' twice: once in the
leading if/else-if chain and again in the switch that follows it, so
'.' pops two frames and 'b' descends two levels per pattern
character. -/
def requireStep (c : Char) (l : List (List Node)) (cp : List Nat) :
    Except EvalErr (List (List Node) × List Nat) :=
  if c = '.' then
    match dotStep l cp with
    | .error e => .error e
    | .ok (l2, cp2) => dotStep l2 cp2
  else if c = 'b' then
    match bStep l cp with
    | .error e => .error e
    | .ok (l2, cp2) => bStep l2 cp2
  else
    match c with
    | 'v' => vStep l cp
    | 'i' => iStep l cp
    | 'e' => eStep l cp
    | _ => .error (exErr "Require syntax error".toList .critical)

def requireGo : List Char → List (List Node) → List Nat → Except EvalErr Unit
  | [], _, _ => .ok ()
  | c :: t, l, cp =>
    match requireStep c l cp with
    | .error e => .error e
    | .ok (l2, cp2) => requireGo t l2 cp2

/-- Evaluator::Require(request, br): RequireBranch(br), then
`l.push(as_branch(br))` — note that no initial cursor is ever pushed
onto c_p, which therefore starts empty — and the do-while loop over
the pattern characters.  For an empty pattern the body still runs
once, reading the null terminator via request[0]. -/
def requireRun (request : Str) (br : Node) : Except EvalErr Unit :=
  match br with
  | .value _ => .error (exErr "Value as branch argument".toList .critical)
  | .branch cs =>
    match request with
    | [] =>
      match requireStep '\x00' [cs] [] with
      | .error e => .error e
      | .ok _ => .ok ()
    | _ => requireGo request [cs] []

/-- Claim-side (spec-worded) extraction of one column entry: "if it
has a child at position idx, append a clone of that child; a Branch
lacking a child at idx contributes nothing". -/
def childAtIdx (idx : Int) (cs : List Node) : List Node :=
  if 0 ≤ idx ∧ idx.toNat < cs.length then [(cs.getD idx.toNat (.value [])).copy] else []

/-- The child lists of the Branch nodes of a list, in order. -/
def onlyBranches : List Node → List (List Node)
  | [] => []
  | .branch cs :: t => cs :: onlyBranches t
  | .value _ :: t => onlyBranches t

def flattenL {α : Type} : List (List α) → List α
  | [] => []
  | cs :: t => cs ++ flattenL t

/-- Claim-side: the child lists of every Branch node whose nesting
distance from a node of `ns` equals k, in depth-first (left-to-right
path) order. -/
def branchesAtDistL : Nat → List Node → List (List Node)
  | 0, ns => onlyBranches ns
  | k + 1, ns => branchesAtDistL k (flattenL (onlyBranches ns))

/-- Claim-side reading of ExtractColumn: clones of the idx-th children
of all Branches at nesting distance k below the nodes of ns. -/
def claimColsL (idx : Int) (k : Nat) (ns : List Node) : List Node :=
  flattenL ((branchesAtDistL k ns).map (childAtIdx idx))

/-- Claim-side reading of ExtractColumn for a root node: "at every
Branch node whose nesting distance from the root equals k, append a
clone of the child of that node at position idx if such a child exists". -/
def claimCols (idx : Int) (k : Nat) (root : Node) : List Node :=
  claimColsL idx k [root]

/-- Per-frame intended output of the ExtractColumnPack DFS loop, used
to relate the machine to the claim-side column description. -/
def frameSpec (idx : Int) (depth lvl : Nat) (cs : List Node) (cp : Nat) : List Node :=
  if cs.length ≤ cp then []
  else if lvl = depth then childAtIdx idx cs
  else claimColsL idx (depth - lvl - 1) (cs.drop cp)

/-- Output still to be produced by a DFS frame stack (the frame at
position j from the top runs at br.size() = rest.length + 1). -/
def framesSpec (idx : Int) (depth : Nat) : List (List Node × Nat) → List Node
  | [] => []
  | (cs, cp) :: rest => frameSpec idx depth (rest.length + 1) cs cp ++ framesSpec idx depth rest

theorem nodeSize_value (s : Str) : nodeSize (.value s) = 1 := rfl

theorem nodeSize_branch (cs : List Node) :
    nodeSize (.branch cs) = 1 + listSize cs := rfl

theorem listSize_nil : listSize [] = 0 := rfl

theorem listSize_cons (c : Node) (t : List Node) :
    listSize (c :: t) = nodeSize c + listSize t := rfl

theorem nodeSize_pos (n : Node) : 0 < nodeSize n := by
  cases n with
  | value s => rw [nodeSize_value]; omega
  | branch cs => rw [nodeSize_branch]; omega

/-- Mutual structural induction over nodes and node lists, derived from
strong induction on the size measure. -/
theorem node_mutual_ind (P : Node → Prop) (Q : List Node → Prop)
    (hv : ∀ s, P (.value s))
    (hb : ∀ cs, Q cs → P (.branch cs))
    (hn : Q [])
    (hc : ∀ c t, P c → Q t → Q (c :: t)) :
    (∀ n, P n) ∧ (∀ cs, Q cs) := by
  have key : ∀ k : Nat, (∀ n, nodeSize n ≤ k → P n) ∧ (∀ cs, listSize cs ≤ k → Q cs) := by
    intro k
    induction k with
    | zero =>
      constructor
      · intro n h; have := nodeSize_pos n; omega
      · intro cs h
        cases cs with
        | nil => exact hn
        | cons c t =>
          rw [listSize_cons] at h
          have := nodeSize_pos c; omega
    | succ k ih =>
      have hnode : ∀ n, nodeSize n ≤ k + 1 → P n := by
        intro n h
        cases n with
        | value s => exact hv s
        | branch cs =>
          rw [nodeSize_branch] at h
          exact hb cs (ih.2 cs (by omega))
      refine ⟨hnode, ?_⟩
      intro cs h
      cases cs with
      | nil => exact hn
      | cons c t =>
        rw [listSize_cons] at h
        have := nodeSize_pos c
        exact hc c t (hnode c (by omega)) (ih.2 t (by omega))
  exact ⟨fun n => (key (nodeSize n)).1 n le_rfl, fun cs => (key (listSize cs)).2 cs le_rfl⟩

theorem depth_value (s : Str) : (Node.value s).depth = 0 := rfl

theorem depth_branch (cs : List Node) :
    (Node.branch cs).depth = depthMax cs + 1 := rfl

/-- A Branch always has positive Depth, hence the `is_branch`
(Depth() > 0) and `is_value` (Depth() == 0) macros are exactly the
constructor tests. -/
theorem depth_branch_pos (cs : List Node) : 0 < (Node.branch cs).depth := by
  rw [depth_branch]; omega

/-- In the pure value model a deep copy is the identity (the C++ clone
is a distinct object with equal contents). -/
theorem copy_id : ∀ n : Node, n.copy = n := by
  have h := node_mutual_ind (fun n => n.copy = n) (fun cs => listCopy cs = cs)
    (fun _ => rfl)
    (fun cs ih => by show Node.branch (listCopy cs) = _; rw [ih])
    rfl
    (fun c t ihc iht => by show c.copy :: listCopy t = _; rw [ihc, iht])
  exact h.1

theorem listCopy_id : ∀ cs : List Node, listCopy cs = cs := by
  have h := node_mutual_ind (fun n => n.copy = n) (fun cs => listCopy cs = cs)
    (fun _ => rfl)
    (fun cs ih => by show Node.branch (listCopy cs) = _; rw [ih])
    rfl
    (fun c t ihc iht => by show c.copy :: listCopy t = _; rw [ihc, iht])
  exact h.2

theorem throwWraped_errorLevel (msg : Str) (lvl : Level) :
    (throwWraped msg lvl).errorLevel = .fatal := rfl

theorem requireValueTop_value (v : Str) (s : List Node) :
    requireValueTop (.value v :: s) = none := by
  simp [requireValueTop, requireTop, requireValue]

theorem requireBranchTop_branch (cs : List Node) (s : List Node) :
    requireBranchTop (.branch cs :: s) = none := by
  simp [requireBranchTop, requireTop, requireBranch]

/-- The pop/collect loop of PackTopSameLevel collects exactly the
maximal prefix of nodes whose Depth equals d and leaves the rest. -/
theorem packLoop_eq (d : Nat) :
    ∀ (s acc : List Node),
      packLoop d s acc
        = (acc ++ s.takeWhile (fun m => m.depth == d), s.dropWhile (fun m => m.depth == d)) := by
  intro s
  induction s with
  | nil => intro acc; simp [packLoop]
  | cons n t ih =>
    intro acc
    by_cases h : n.depth = d
    · rw [packLoop, if_pos h, ih]
      simp [List.takeWhile_cons, List.dropWhile_cons, h]
    · rw [packLoop, if_neg h]
      simp [List.takeWhile_cons, List.dropWhile_cons, h]

theorem parseNatDigits_append_one (a : Str) (d : Char) :
    parseNatDigits (a ++ [d]) = parseNatDigits a * 10 + (d.toNat - 48) := by
  simp [parseNatDigits, List.foldl_append]

theorem digit_char_facts :
    ∀ n, n < 10 → ((Char.ofNat (48 + n)).isDigit = true ∧ (Char.ofNat (48 + n)).toNat = 48 + n) := by
  decide

theorem natToStrAux_spec :
    ∀ fuel n, n < fuel →
      (natToStrAux fuel n ≠ [] ∧ (∀ c ∈ natToStrAux fuel n, c.isDigit = true) ∧
        parseNatDigits (natToStrAux fuel n) = n) := by
  intro fuel
  induction fuel with
  | zero => intro n h; omega
  | succ fuel ih =>
    intro n h
    by_cases h10 : n < 10
    · rw [natToStrAux, if_pos h10]
      obtain ⟨hd, ht⟩ := digit_char_facts n h10
      refine ⟨by simp, ?_, ?_⟩
      · intro c hc
        simp at hc
        rw [hc]; exact hd
      · simp [parseNatDigits]; omega
    · rw [natToStrAux, if_neg h10]
      have hdiv : n / 10 < fuel := by omega
      obtain ⟨h1, h2, h3⟩ := ih (n / 10) hdiv
      obtain ⟨hd, ht⟩ := digit_char_facts (n % 10) (by omega)
      refine ⟨by simp, ?_, ?_⟩
      · intro c hc
        rw [List.mem_append] at hc
        rcases hc with hc | hc
        · exact h2 c hc
        · simp at hc; rw [hc]; exact hd
      · rw [parseNatDigits_append_one, h3, ht]
        omega

theorem digit_not_ws (c : Char) (h : c.isDigit = true) : isWsChar c = false := by
  by_contra hc
  rw [Bool.not_eq_false] at hc
  simp only [isWsChar, decide_eq_true_eq] at hc
  rcases hc with h1 | h1 | h1 | h1 | h1 | h1 <;> rw [h1] at h <;> exact absurd h (by decide)

theorem digit_not_minus (c : Char) (h : c.isDigit = true) : c ≠ '-' := by
  intro he; rw [he] at h; exact absurd h (by decide)

theorem digit_not_plus (c : Char) (h : c.isDigit = true) : c ≠ '+' := by
  intro he; rw [he] at h; exact absurd h (by decide)

theorem takeWhile_of_all {p : Char → Bool} :
    ∀ l : Str, (∀ c ∈ l, p c = true) → l.takeWhile p = l := by
  intro l
  induction l with
  | nil => intro _; rfl
  | cons c t ih =>
    intro h
    rw [List.takeWhile_cons, if_pos (h c (by simp))]
    rw [ih (fun x hx => h x (by simp [hx]))]

/-- readAsInt on a non-empty all-digit string is its decimal value,
clamped at INT_MAX. -/
theorem readAsInt_digits (t : Str) (hne : t ≠ []) (hall : ∀ c ∈ t, c.isDigit = true) :
    readAsInt t = ((min (parseNatDigits t) 2147483647 : Nat) : Int) := by
  cases t with
  | nil => exact absurd rfl hne
  | cons c r =>
    have hc : c.isDigit = true := hall c (by simp)
    have hws : (c :: r).dropWhile isWsChar = c :: r := by
      rw [List.dropWhile_cons, digit_not_ws c hc]
      simp
    rw [readAsInt, hws, readAsIntCore]
    rw [if_neg (digit_not_minus c hc), if_neg (digit_not_plus c hc)]
    rw [readAsIntPos]
    have htw : (c :: r).takeWhile Char.isDigit = c :: r := takeWhile_of_all _ hall
    simp only [htw]
    rw [if_neg (by simp)]

theorem readAsInt_natToStr (n : Nat) :
    readAsInt (natToStr n) = ((min n 2147483647 : Nat) : Int) := by
  obtain ⟨h1, h2, h3⟩ := natToStrAux_spec (n + 1) n (by omega)
  rw [natToStr, readAsInt_digits _ h1 h2, h3]

theorem packTopX_natToStr (s : List Node) (c : Nat) (h : c ≤ s.length) :
    packTopX (.value (natToStr c) :: s)
      = .ok (.branch ((s.take (min c 2147483647)).reverse) :: s.drop (min c 2147483647)) := by
  have hr := readAsInt_natToStr c
  simp only [packTopX, requireValueTop_value, hr]
  rw [if_neg (by omega)]
  simp only [Int.toNat_natCast]

theorem c3_pack_unpack (s : List Node) (c : Nat) (h : c ≤ s.length) :
    (packTopX (.value (natToStr c) :: s)).bind unpackTop = .ok s := by
  rw [packTopX_natToStr s c h]
  show unpackTop (.branch ((s.take (min c 2147483647)).reverse) :: s.drop (min c 2147483647)) = .ok s
  simp only [unpackTop, requireBranchTop_branch, listCopy_id, List.reverse_reverse]
  rw [List.take_append_drop]

theorem isPre_eq (sep : Str) : ∀ s, isPre sep s = true → s = sep ++ s.drop sep.length := by
  induction sep with
  | nil => intro s _; simp
  | cons a as ih =>
    intro s hp
    cases s with
    | nil => exact absurd hp (by simp [isPre])
    | cons b bs =>
      rw [isPre, Bool.and_eq_true] at hp
      obtain ⟨hab, hpre⟩ := hp
      have hab2 : a = b := eq_of_beq hab
      subst hab2
      have := ih bs hpre
      simp only [List.length_cons, List.drop_succ_cons]
      conv in bs => rw [this]
      simp

theorem splitFirst_some (sep : Str) :
    ∀ s a r, splitFirst sep s = some (a, r) → s = a ++ sep ++ r := by
  intro s
  induction s with
  | nil =>
    intro a r hf
    rw [splitFirst] at hf
    by_cases hp : isPre sep [] = true
    · rw [if_pos hp] at hf
      have hsep : sep = [] := by
        cases sep with
        | nil => rfl
        | cons x xs => exact absurd hp (by simp [isPre])
      injection hf with hf2
      injection hf2 with h1 h2
      subst hsep; rw [← h1, ← h2]; rfl
    · rw [if_neg hp] at hf; exact absurd hf (by simp)
  | cons c t ih =>
    intro a r hf
    rw [splitFirst] at hf
    by_cases hp : isPre sep (c :: t) = true
    · rw [if_pos hp] at hf
      injection hf with hf2
      injection hf2 with h1 h2
      rw [← h1, ← h2]
      simpa using isPre_eq sep (c :: t) hp
    · rw [if_neg hp] at hf
      cases hs : splitFirst sep t with
      | none => rw [hs] at hf; exact absurd hf (by simp)
      | some p =>
        obtain ⟨a2, r2⟩ := p
        rw [hs] at hf
        injection hf with hf2
        injection hf2 with h1 h2
        rw [← h1, ← h2]
        have := ih a2 r2 hs
        rw [List.cons_append, List.cons_append, ← this]

theorem concatGo_true_head (sep h : Str) (t : List Node) :
    concatGo sep true (.value h :: t) = sep ++ concatGo sep false (.value h :: t) := by
  simp [concatGo]

theorem splitAllAux_shape (sep : Str) :
    ∀ fuel s, ∃ h t, splitAllAux sep fuel s = h :: t := by
  intro fuel s
  cases fuel with
  | zero => exact ⟨s, [], rfl⟩
  | succ fuel =>
    rw [splitAllAux]
    cases hf : splitFirst sep s with
    | none => exact ⟨s, [], rfl⟩
    | some p => exact ⟨p.1, _, rfl⟩

/-- Splitting and re-concatenating with the same non-empty separator
reproduces the source text. -/
theorem concat_splitAllAux (sep : Str) (hsep : sep ≠ []) :
    ∀ fuel s, s.length < fuel →
      concatGo sep false ((splitAllAux sep fuel s).map Node.value) = s := by
  intro fuel
  induction fuel with
  | zero => intro s h; omega
  | succ fuel ih =>
    intro s h
    rw [splitAllAux]
    cases hf : splitFirst sep s with
    | none => simp [concatGo]
    | some p =>
      obtain ⟨a, r⟩ := p
      have hs := splitFirst_some sep s a r hf
      have hseplen : 0 < sep.length := by
        cases sep with
        | nil => exact absurd rfl hsep
        | cons x xs => simp
      have hlen : r.length < fuel := by
        have : s.length = a.length + sep.length + r.length := by
          rw [hs]; simp only [List.length_append]
        omega
      obtain ⟨h0, t0, hshape⟩ := splitAllAux_shape sep fuel r
      have ihr := ih r hlen
      rw [hshape] at ihr
      simp only [List.map_cons, concatGo]
      rw [hshape]
      simp only [List.map_cons]
      rw [concatGo_true_head]
      have : concatGo sep false (Node.value h0 :: List.map Node.value t0) = r := ihr
      rw [this, hs]
      simp

theorem concat_splitAll (sep : Str) (hsep : sep ≠ []) (s : Str) :
    concatGo sep false ((splitAll sep s).map Node.value) = s :=
  concat_splitAllAux sep hsep (s.length + 1) s (by omega)

/-- C4 support: SplitRow then ConcatRow with the same separator. -/
theorem splitRow_concatRow (src sep : Str) (rest : List Node) (hsep : sep ≠ []) :
    (splitRow (.value sep :: .value src :: rest)).bind
      (fun s1 => concatRow (.value sep :: s1)) = .ok (.value src :: rest) := by
  have hlen : ¬ sep.length = 0 := by
    cases sep with
    | nil => exact absurd rfl hsep
    | cons x xs => simp
  simp only [splitRow, requireValueTop_value]
  rw [if_neg hlen]
  show concatRow (.value sep :: .branch ((splitAll sep src).map Node.value) :: rest) = _
  simp only [concatRow, requireValueTop_value, requireBranchTop_branch]
  rw [concat_splitAll sep hsep src]

theorem listSize_drop (cs : List Node) :
    ∀ cp, cp < cs.length →
      listSize (cs.drop cp) = nodeSize (cs.getD cp (.value [])) + listSize (cs.drop (cp + 1)) := by
  induction cs with
  | nil => intro cp h; simp at h
  | cons c t ih =>
    intro cp h
    cases cp with
    | zero => simp [listSize_cons]
    | succ cp =>
      simp only [List.drop_succ_cons, List.getD_cons_succ]
      exact ih cp (by simp at h; omega)

theorem onlyBranches_append : ∀ a b : List Node,
    onlyBranches (a ++ b) = onlyBranches a ++ onlyBranches b := by
  intro a b
  induction a with
  | nil => rfl
  | cons c t ih =>
    cases c with
    | value s => simpa [onlyBranches] using ih
    | branch cs => simpa [onlyBranches] using ih

theorem flattenL_append {α : Type} : ∀ a b : List (List α),
    flattenL (a ++ b) = flattenL a ++ flattenL b := by
  intro a b
  induction a with
  | nil => rfl
  | cons c t ih => simp [flattenL, ih]

theorem branchesAtDistL_nil : ∀ k, branchesAtDistL k [] = [] := by
  intro k
  induction k with
  | zero => rfl
  | succ k ih =>
    show branchesAtDistL k (flattenL (onlyBranches [])) = []
    exact ih

theorem branchesAtDistL_append : ∀ k (a b : List Node),
    branchesAtDistL k (a ++ b) = branchesAtDistL k a ++ branchesAtDistL k b := by
  intro k
  induction k with
  | zero => intro a b; exact onlyBranches_append a b
  | succ k ih =>
    intro a b
    show branchesAtDistL k (flattenL (onlyBranches (a ++ b)))
      = branchesAtDistL k (flattenL (onlyBranches a)) ++ branchesAtDistL k (flattenL (onlyBranches b))
    rw [onlyBranches_append, flattenL_append, ih]

theorem branchesAtDistL_value (k : Nat) (s : Str) (t : List Node) :
    branchesAtDistL k (.value s :: t) = branchesAtDistL k t := by
  cases k <;> rfl

theorem branchesAtDistL_branch_zero (cs t : List Node) :
    branchesAtDistL 0 (.branch cs :: t) = cs :: branchesAtDistL 0 t := rfl

theorem branchesAtDistL_branch_succ (k : Nat) (cs t : List Node) :
    branchesAtDistL (k + 1) (.branch cs :: t)
      = branchesAtDistL k cs ++ branchesAtDistL (k + 1) t := by
  show branchesAtDistL k (cs ++ flattenL (onlyBranches t)) = _
  rw [branchesAtDistL_append]
  rfl

theorem claimColsL_nil (idx : Int) (k : Nat) : claimColsL idx k [] = [] := by
  rw [claimColsL, branchesAtDistL_nil]; rfl

theorem claimColsL_value (idx : Int) (k : Nat) (s : Str) (t : List Node) :
    claimColsL idx k (.value s :: t) = claimColsL idx k t := by
  rw [claimColsL, branchesAtDistL_value]; rfl

theorem claimColsL_branch_zero (idx : Int) (cs t : List Node) :
    claimColsL idx 0 (.branch cs :: t) = childAtIdx idx cs ++ claimColsL idx 0 t := by
  rw [claimColsL, branchesAtDistL_branch_zero]; rfl

theorem claimColsL_branch_succ (idx : Int) (k : Nat) (cs t : List Node) :
    claimColsL idx (k + 1) (.branch cs :: t)
      = claimColsL idx k cs ++ claimColsL idx (k + 1) t := by
  rw [claimColsL, branchesAtDistL_branch_succ, List.map_append, flattenL_append]
  rfl

theorem frameSpec_cols (idx : Int) (depth lvl : Nat) (cs : List Node) (cp : Nat)
    (h : lvl ≠ depth) :
    frameSpec idx depth lvl cs cp = claimColsL idx (depth - lvl - 1) (cs.drop cp) := by
  rw [frameSpec]
  by_cases h1 : cs.length ≤ cp
  · rw [if_pos h1, List.drop_eq_nil_of_le h1, claimColsL_nil]
  · rw [if_neg h1, if_neg h]

theorem childAtIdx_nil (idx : Int) : childAtIdx idx [] = [] := by
  simp [childAtIdx]

theorem frameSpec_at_depth (idx : Int) (depth : Nat) (cs : List Node) :
    frameSpec idx depth depth cs 0 = childAtIdx idx cs := by
  rw [frameSpec]
  by_cases h1 : cs.length ≤ 0
  · rw [if_pos h1]
    have : cs = [] := List.length_eq_zero.mp (by omega)
    rw [this, childAtIdx_nil]
  · rw [if_neg h1, if_pos rfl]

/-- The ExtractColumnPack DFS loop, given enough fuel (its strictly
decreasing measure) and frames that never lie below the target depth,
produces exactly the per-frame intended outputs in order. -/
theorem ecLoopAux_spec (idx : Int) (depth : Nat) :
    ∀ fuel frames acc, frameMeasure frames ≤ fuel → frames.length ≤ depth →
      ecLoopAux idx depth fuel frames acc = acc ++ framesSpec idx depth frames := by
  intro fuel
  induction fuel with
  | zero =>
    intro frames acc hm _
    cases frames with
    | nil => simp [ecLoopAux, framesSpec]
    | cons f rest =>
      obtain ⟨cs, cp⟩ := f
      exfalso
      rw [frameMeasure] at hm
      omega
  | succ fuel ih =>
    intro frames acc hm hl
    cases frames with
    | nil => simp [ecLoopAux, framesSpec]
    | cons f rest =>
      obtain ⟨cs, cp⟩ := f
      rw [frameMeasure] at hm
      rw [List.length_cons] at hl
      rw [ecLoopAux, framesSpec]
      by_cases h1 : cs.length ≤ cp
      · rw [if_pos h1]
        rw [ih rest acc (by omega) (by omega)]
        rw [frameSpec, if_pos h1]
        simp
      · rw [if_neg h1]
        have hcp : cp < cs.length := by omega
        have hdrop := listSize_drop cs cp hcp
        have hdropcons : cs.drop cp = cs.getD cp (.value []) :: cs.drop (cp + 1) := by
          rw [List.drop_eq_getElem_cons hcp, List.getD_eq_getElem cs _ hcp]
        by_cases h2 : rest.length + 1 = depth
        · rw [if_pos h2]
          rw [ih rest _ (by omega) (by omega)]
          rw [frameSpec, if_neg h1, if_pos h2, childAtIdx]
          by_cases h3 : 0 ≤ idx ∧ idx.toNat < cs.length
          · rw [if_pos h3, if_pos h3]
            simp
          · rw [if_neg h3, if_neg h3]
            simp
        · rw [if_neg h2]
          cases hc : cs.getD cp (.value []) with
          | value sv =>
            show ecLoopAux idx depth fuel ((cs, cp + 1) :: rest) acc = _
            rw [hc, nodeSize_value] at hdrop
            rw [ih ((cs, cp + 1) :: rest) acc (by rw [frameMeasure]; omega)
              (by rw [List.length_cons]; omega)]
            rw [framesSpec]
            rw [frameSpec_cols idx depth _ cs cp h2, frameSpec_cols idx depth _ cs (cp + 1) h2]
            rw [hdropcons, hc, claimColsL_value]
          | branch cs2 =>
            show ecLoopAux idx depth fuel ((cs2, 0) :: (cs, cp + 1) :: rest) acc = _
            rw [hc, nodeSize_branch] at hdrop
            rw [ih ((cs2, 0) :: (cs, cp + 1) :: rest) acc
              (by rw [frameMeasure, frameMeasure]; simp only [List.drop_zero]; omega)
              (by rw [List.length_cons, List.length_cons]; omega)]
            rw [framesSpec, framesSpec]
            rw [frameSpec_cols idx depth _ cs cp h2, frameSpec_cols idx depth _ cs (cp + 1) h2]
            rw [hdropcons, hc]
            rw [List.length_cons]
            by_cases h4 : rest.length + 1 + 1 = depth
            · have hk : depth - (rest.length + 1) - 1 = 0 := by omega
              rw [hk, claimColsL_branch_zero]
              rw [show rest.length + 1 + 1 = depth from h4]
              rw [frameSpec_at_depth]
              simp
            · have hk : depth - (rest.length + 1) - 1 = (depth - (rest.length + 1 + 1) - 1) + 1 := by
                omega
              rw [hk, claimColsL_branch_succ]
              rw [frameSpec_cols idx depth _ cs2 0 h4]
              rw [List.drop_zero]
              simp

theorem frameSpec_root (idx : Int) (d : Nat) (cs : List Node) (hd : 1 ≤ d) :
    frameSpec idx d 1 cs 0 = claimCols idx (d - 1) (.branch cs) := by
  rw [claimCols]
  by_cases h1 : d = 1
  · subst h1
    rw [frameSpec_at_depth]
    rw [show (1 : Nat) - 1 = 0 from rfl, claimColsL_branch_zero, claimColsL_nil]
    simp
  · have h2 : (1 : Nat) ≠ d := fun he => h1 he.symm
    rw [frameSpec_cols idx d 1 cs 0 h2, List.drop_zero]
    have hk : d - 1 = (d - 2) + 1 := by omega
    rw [hk, claimColsL_branch_succ, claimColsL_nil]
    have h3 : d - 2 + 1 - 1 = d - 2 := by omega
    rw [h3]
    simp

/-- ExtractColumnPack on proper arguments: the pushed Branch holds the
clones of the idx-th children of exactly the Branches at nesting
distance depth - 1 from the root (the root itself when depth = 1), in
depth-first order; the source Branch stays on the stack beneath it. -/
theorem extractColumnPack_cols (it dt : Str) (cs rest : List Node)
    (hd : 1 ≤ readAsInt dt) :
    extractColumnPack (.value it :: .value dt :: .branch cs :: rest)
      = .ok (.branch (claimCols (readAsInt it) ((readAsInt dt).toNat - 1) (.branch cs))
             :: .branch cs :: rest) := by
  simp only [extractColumnPack, requireValueTop_value, requireBranchTop_branch]
  rw [if_neg (by omega)]
  rw [ecLoopAux_spec (readAsInt it) (readAsInt dt).toNat (frameMeasure [(cs, 0)]) [(cs, 0)] []
    le_rfl (by simp only [List.length_cons, List.length_nil]; omega)]
  rw [framesSpec, framesSpec]
  rw [show List.length ([] : List (List Node × Nat)) + 1 = 1 from rfl]
  rw [frameSpec_root _ _ cs (by omega)]
  simp

/-- C1: the claim says a built-in error (here MissingArgument from
"^t" on an empty stack) carries severity Critical and is absorbed when
ApprovedLevel = Critical.  Evaluating the code: ThrowWraped wraps the
Critical inner exception in an outer exception whose level defaults to
Fatal, EvalCom compares that outer level, so with ApprovedLevel =
Critical the log entry is pushed and the error is nevertheless
re-thrown; ErrorLevel() of the thrown exception is Fatal while only the
wrapped inner one is Critical. -/
theorem claim_C1 :
    evalCom .critical "^t".toList true true ⟨[], []⟩
      = .error (exErr "Required argument, but not passed".toList .critical,
          ⟨[], ["Execution engine exceptionRequired argument, but not passed\nCaused during invoking:^t".toList]⟩)
    ∧ (throwWraped "Required argument, but not passed".toList .critical).errorLevel = .fatal
    ∧ EEE.errorLevel (.mk none "Required argument, but not passed".toList .critical) = .critical :=
  ⟨rfl, rfl, rfl⟩

/-- C2: the claim says evaluating "#" on an empty Data stack raises a
MissingArgument error of severity Critical that propagates out of
EvaluateOne.  Evaluating the code: the "#" lambda calls Data.pop()
with no check, which on an empty std::stack is undefined behaviour —
no ExecutionEngineException is constructed at all, whatever the
ApprovedLevel. -/
theorem claim_C2 : ∀ lvl : Level,
    evalCom lvl "#".toList true true ⟨[], []⟩ = .error (.ub, ⟨[], []⟩) :=
  fun _ => rfl

/-- C3: pushing the unsigned-integer leaf for c (0 ≤ c ≤ stack size)
and evaluating PackTopCount ("^tc") followed immediately by UnpackTop
("^_t") leaves the Data stack equal in size, order and node values to
the stack before the count was pushed. -/
theorem claim_C3 (s : List Node) (c : Nat) (h : c ≤ s.length) :
    (packTopX (.value (natToStr c) :: s)).bind unpackTop = .ok s :=
  c3_pack_unpack s c h

theorem claim_C3_witness :
    2 ≤ ([Node.value ['a'], Node.value ['b'], Node.value ['c']] : List Node).length
    ∧ (packTopX (.value (natToStr 2)
          :: [Node.value ['a'], Node.value ['b'], Node.value ['c']])).bind unpackTop
        = .ok [Node.value ['a'], Node.value ['b'], Node.value ['c']] :=
  ⟨by decide, claim_C3 [Node.value ['a'], Node.value ['b'], Node.value ['c']] 2 (by decide)⟩

/-- C4: for every source text and every non-empty separator,
evaluating SplitRow ("$_") and then ConcatRow ("$^") with the same
separator pushes a Leaf whose text equals the original source exactly,
including empty segments from adjacent, leading or trailing
separators. -/
theorem claim_C4 (src sep : Str) (rest : List Node) (hsep : sep ≠ []) :
    (splitRow (.value sep :: .value src :: rest)).bind
      (fun s1 => concatRow (.value sep :: s1)) = .ok (.value src :: rest) :=
  splitRow_concatRow src sep rest hsep

theorem claim_C4_witness :
    ([','] : Str) ≠ []
    ∧ (splitRow (.value [','] :: .value "a,,b,".toList :: [])).bind
        (fun s1 => concatRow (.value [','] :: s1)) = .ok [.value "a,,b,".toList] :=
  ⟨by decide, claim_C4 "a,,b,".toList [','] [] (by decide)⟩

/-- C6: PackSameDepth ("^") takes the depth d of the current top node,
pops the maximal run of nodes of depth d, collects them in pop order
(top first) as the children of one new Branch and pushes it; in
particular after pushing the leaves "x", "y", "z", evaluating "^"
leaves one Branch with children ["z","y","x"]. -/
theorem claim_C6 :
    (∀ (n : Node) (ns : List Node),
      packTopSameLevel (n :: ns)
        = .ok (.branch ((n :: ns).takeWhile (fun m => m.depth == n.depth))
               :: (n :: ns).dropWhile (fun m => m.depth == n.depth)))
    ∧ evalComs .warning ["x".toList, "y".toList, "z".toList, "^".toList] ⟨[], []⟩
        = .ok ⟨[.branch [.value "z".toList, .value "y".toList, .value "x".toList]], []⟩ := by
  constructor
  · intro n ns
    show Except.ok (.branch (packLoop n.depth (n :: ns) []).1 :: (packLoop n.depth (n :: ns) []).2)
      = _
    rw [packLoop_eq]
    simp
  · rfl

/-- C7 counterexample: with column index 0 and depth 1 on the Branch
["a","b"], the code extracts the child "a" of the root itself (the
nesting distance of the root from itself is 0, not 1), whereas the
claimed "every Branch node whose nesting distance from the root equals d"
finds no Branch at distance 1 and would produce an empty output
Branch. -/
theorem claim_C7_counterexample :
    extractColumnPack [.value ['0'], .value ['1'], .branch [.value ['a'], .value ['b']]]
      = .ok [.branch [.value ['a']], .branch [.value ['a'], .value ['b']]]
    ∧ Node.branch (claimCols 0 1 (.branch [.value ['a'], .value ['b']])) = .branch []
    ∧ Node.branch [Node.value ['a']] ≠ Node.branch [] := by
  refine ⟨rfl, rfl, ?_⟩
  intro h
  injection h with h2
  simp at h2

/-- C7 amended: ExtractColumn with column index idx and target depth
d ≥ 1 pushes a flat Branch holding clones of the idx-th children of
exactly the Branch nodes whose nesting distance from the root Branch
equals d - 1 (the root itself when d = 1), in depth-first order,
skipping Branches lacking a child at idx; the source Branch stays on
the stack beneath the output. -/
theorem claim_C7_amended (it dt : Str) (cs rest : List Node) (hd : 1 ≤ readAsInt dt) :
    extractColumnPack (.value it :: .value dt :: .branch cs :: rest)
      = .ok (.branch (claimCols (readAsInt it) ((readAsInt dt).toNat - 1) (.branch cs))
             :: .branch cs :: rest) :=
  extractColumnPack_cols it dt cs rest hd

theorem claim_C7_amended_witness :
    1 ≤ readAsInt ['2']
    ∧ extractColumnPack [.value ['0'], .value ['2'],
        .branch [.branch [.value ['a'], .value ['b']], .branch [.value ['c'], .value ['d']]]]
      = .ok (.branch (claimCols (readAsInt ['0']) ((readAsInt ['2']).toNat - 1)
              (.branch [.branch [.value ['a'], .value ['b']], .branch [.value ['c'], .value ['d']]]))
             :: .branch [.branch [.value ['a'], .value ['b']], .branch [.value ['c'], .value ['d']]] :: []) :=
  ⟨by decide,
   claim_C7_amended ['0'] ['2']
     [.branch [.value ['a'], .value ['b']], .branch [.value ['c'], .value ['d']]] [] (by decide)⟩

/-- C8: the claim says interpretation starts with the cursor at the
first child of the root Branch and each 'b' opcode runs exactly once per
pattern character.  Evaluating the code: Require never pushes the
initial cursor onto c_p, so even the pattern "v" against the Branch
["x"] — which the claim says succeeds — reads c_p.top() of an empty
std::stack, which is undefined behaviour (and the duplicated
if/else-if + switch blocks would run 'b' and '.' twice). -/
theorem claim_C8 : requireRun ['v'] (.branch [.value ['x']]) = .error .ub := rfl

/-- C9: the claim says the batch failure message includes the full
token sequence executed so far as a trace.  Evaluating the code on
["x","5","^tc"] (which fails at "^tc"): the trace loop prints
coms[i] — the failing token itself — i + 1 times, so the log entry
ends in "\t^tc\n\t^tc\n\t^tc\n" instead of listing "x", "5", "^tc";
the re-throw under the severity threshold does abort the batch. -/
theorem claim_C9 :
    evalComs .warning ["x".toList, "5".toList, "^tc".toList] ⟨[], []⟩
      = .error (exErr "Too few arguments to unpack".toList .critical,
          ⟨[.value "x".toList],
           ["Execution engine exceptionToo few arguments to unpack\nCaused during invoking:^tc\nCom trace:\t^tc\n\t^tc\n\t^tc\n".toList]⟩) :=
  rfl

/-- C10: with the unsigned-integer leaf "0" (or "1") on top and at
least one node beneath, Duplicate ("|c") pops only the count leaf and
pushes no clones: exactly one instance of the node beneath remains and
becomes the new top. -/
theorem claim_C10 : ∀ (n : Node) (rest : List Node),
    duplicate (.value ['0'] :: n :: rest) = .ok (n :: rest)
    ∧ duplicate (.value ['1'] :: n :: rest) = .ok (n :: rest) :=
  fun _ _ => ⟨rfl, rfl⟩
